import Mathlib

/-!
# Verification of the QUnfold QUBO formulation engine

Shallow embedding of the class `QUnfoldQUBO` (file `src/QUnfold/core/QUnfoldQUBO.py`).
Histograms are functions `Fin n → ℚ`, matrices are curried functions
`Fin n → Fin n → ℚ`; the real-valued statistics of the toy Monte Carlo error
estimator are embedded over `ℝ`.  Floating-point arithmetic of the source is
modelled by exact arithmetic.
-/

namespace QUnfold

/-! ## The Laplacian regularisation matrix (`_get_laplacian`) -/

/-- Diagonal of the Laplacian: the source builds `[-1] + [-2]*(dim-2) + [-1]`,
so entry `0` and entry `dim-1` are `-1` and the interior entries are `-2`. -/
def laplacianDiag (n : ℕ) (i : Fin n) : ℚ :=
  if i.val = 0 ∨ i.val = n - 1 then -1 else -2

/-- `_get_laplacian(dim)`: `np.diag(diag) + np.diag(ones, k=1) + np.diag(ones, k=-1)`. -/
def getLaplacian (n : ℕ) (i j : Fin n) : ℚ :=
  (if i = j then laplacianDiag n i else 0)
    + (if j.val = i.val + 1 then 1 else 0)
    + (if i.val = j.val + 1 then 1 else 0)

/-! ## Expected number of entries (`_get_expected_num_entries`) -/

/-- `effs = np.sum(self.R, axis=0)`: column sums (efficiencies) of the response matrix. -/
def effs {n : ℕ} (R : Fin n → Fin n → ℚ) (j : Fin n) : ℚ := ∑ i, R i j

/-- `effs[effs == 0] = 1`: zero efficiencies are replaced by `1`. -/
def adjustedEffs {n : ℕ} (R : Fin n → Fin n → ℚ) (j : Fin n) : ℚ :=
  if effs R j = 0 then 1 else effs R j

/-- `num_entries = self.d / effs` after the zero-replacement. -/
def getExpectedNumEntries {n : ℕ} (R : Fin n → Fin n → ℚ) (d : Fin n → ℚ) (i : Fin n) : ℚ :=
  d i / adjustedEffs R i

/-! ## Binary-encoded integer variables (`_define_variables`, `compute_energy`) -/

/-- `num_bits = int(np.ceil(np.log2((num_entries[i] + 1) * 1.2)))` from `compute_energy`
(the same exponent also appears in `_define_variables`); `np.ceil(np.log2 y)` is the
ceiling log base 2, i.e. `Int.clog 2 y`, which is non-negative whenever `y ≥ 1`. -/
def numBits (e : ℚ) : ℕ := (Int.clog 2 ((e + 1) * (6 / 5))).toNat

/-- `upper = int(2 ** np.ceil(np.log2((num_entries[i] + 1) * 1.2))) - 1`. -/
def upperBound (e : ℚ) : ℤ := 2 ^ numBits e - 1

/-- A `pyqubo.LogEncInteger` descriptor: a label and the integer value range. -/
structure LogEncInteger where
  label : String
  lower : ℤ
  upper : ℤ
  deriving DecidableEq, Repr

/-- `_define_variables`: one `LogEncInteger(label=f"x{i}", value_range=(0, upper))` per bin. -/
def defineVariables {n : ℕ} (R : Fin n → Fin n → ℚ) (d : Fin n → ℚ) : List LogEncInteger :=
  (List.finRange n).map fun i =>
    ⟨"x" ++ Nat.repr i.val, 0, upperBound (getExpectedNumEntries R d i)⟩

/-- Modelled from the spec (§3 "Encoded variables", §4.4): a `pyqubo.LogEncInteger`
with range `[0, upper]` is represented by `⌈log2(upper + 1)⌉` binary digits; the
bit-level representation itself lives in the external compiler. -/
def logEncDigits (upper : ℤ) : ℕ := (Int.clog 2 ((upper : ℚ) + 1)).toNat

/-! ## The Hamiltonian (`_define_hamiltonian`) -/

/-- `a = -2 * (self.R.T @ self.d)`. -/
def linCoeff {n : ℕ} (R : Fin n → Fin n → ℚ) (d : Fin n → ℚ) (i : Fin n) : ℚ :=
  -2 * ∑ k, R k i * d k

/-- `B = (self.R.T @ self.R) + self.lam * (G.T @ G)` with `G = _get_laplacian(dim)`. -/
def quadCoeff {n : ℕ} (R : Fin n → Fin n → ℚ) (lam : ℚ) (i j : Fin n) : ℚ :=
  (∑ k, R k i * R k j) + lam * ∑ k, getLaplacian n k i * getLaplacian n k j

/-- `_define_hamiltonian`: `Σ_i a[i]*x[i] + Σ_i Σ_j B[i,j]*x[i]*x[j]` over the
integer (not yet bit-expanded) variables. -/
def defineHamiltonian {n : ℕ} (R : Fin n → Fin n → ℚ) (d : Fin n → ℚ) (lam : ℚ)
    (x : Fin n → ℚ) : ℚ :=
  (∑ i, linCoeff R d i * x i) + ∑ i, ∑ j, quadCoeff R lam i j * x i * x j

/-- The regularised least-squares objective `‖Rx - d‖² + lam*‖Gx‖² - ‖d‖²`
that the Hamiltonian is claimed to equal. -/
def objective {n : ℕ} (R : Fin n → Fin n → ℚ) (d : Fin n → ℚ) (lam : ℚ)
    (x : Fin n → ℚ) : ℚ :=
  (∑ k, ((∑ j, R k j * x j) - d k) ^ 2)
    + lam * (∑ k, (∑ j, getLaplacian n k j * x j) ^ 2)
    - ∑ k, d k ^ 2

/-! ## Bit-level decoding and the energy evaluator
(`_post_process_sampleset`, `compute_energy`) -/

/-- Value of a log-encoded integer from its binary digits, least-significant digit
first: `Σ_j 2^j * bit_j` (the decoding performed by `model.decode_sample` /
`sample.subh`, §4.4 decode contract). -/
def decodeBits : List Bool → ℕ
  | [] => 0
  | b :: bs => (if b then 1 else 0) + 2 * decodeBits bs

/-- The binary digits of `v` on `w` bits, least-significant first: the digit list
`np.binary_repr(int(x[i]), width=num_bits)` read through `bitstr[::-1]` in
`compute_energy` (within-range case `v < 2^w`). -/
def natToBits : ℕ → ℕ → List Bool
  | 0, _ => []
  | w + 1, v => (v % 2 == 1) :: natToBits w (v / 2)

/-- `_post_process_sampleset`: decode the best sample's bit assignment into the
unfolded histogram, one integer value per label `x{i}`.  The bit assignment is
given per variable, least-significant digit first. -/
def postProcessSampleset {n : ℕ} (s : Fin n → List Bool) : Fin n → ℕ :=
  fun i => decodeBits (s i)

/-- Modelled from the spec (§3 "Compiled model", §4.4, §6): the compiled binary
quadratic model's energy of a bit assignment (`self.bqm.energy`, external to the
repository) is the integer Hamiltonian evaluated at the decoded integer values. -/
def bqmEnergy {n : ℕ} (R : Fin n → Fin n → ℚ) (d : Fin n → ℚ) (lam : ℚ)
    (s : Fin n → List Bool) : ℚ :=
  defineHamiltonian R d lam fun i => (decodeBits (s i) : ℚ)

/-- `compute_energy`: re-derive each bin's bit-width from the expected number of
entries of the *original* measured histogram `d`, binary-expand the candidate
histogram `x`, and evaluate the compiled model's energy on those bits. -/
def computeEnergy {n : ℕ} (R : Fin n → Fin n → ℚ) (d : Fin n → ℚ) (lam : ℚ)
    (x : Fin n → ℕ) : ℚ :=
  bqmEnergy R d lam fun i => natToBits (numBits (getExpectedNumEntries R d i)) (x i)

/-! ## The toy Monte Carlo error estimator (`_compute_error`) -/

/-- Mean of column `j` of the toy ensemble (rows = toys, columns = bins). -/
noncomputable def colMean {T n : ℕ} (M : Fin T → Fin n → ℝ) (j : Fin n) : ℝ :=
  (∑ i, M i j) / T

/-- `np.std(unfolded_results, axis=0)`: population (ddof = 0) standard deviation
of ensemble column `j`. -/
noncomputable def npStd {T n : ℕ} (M : Fin T → Fin n → ℝ) (j : Fin n) : ℝ :=
  Real.sqrt ((∑ i, (M i j - colMean M j) ^ 2) / T)

/-- `np.cov(unfolded_results, rowvar=False)`: unbiased (ddof = 1) covariance of
ensemble columns `j` and `k`. -/
noncomputable def npCov {T n : ℕ} (M : Fin T → Fin n → ℝ) (j k : Fin n) : ℝ :=
  (∑ i, (M i j - colMean M j) * (M i k - colMean M k)) / ((T : ℝ) - 1)

/-- `np.corrcoef(unfolded_results, rowvar=False)`: `C_jk / sqrt(C_jj * C_kk)`. -/
noncomputable def npCorr {T n : ℕ} (M : Fin T → Fin n → ℝ) (j k : Fin n) : ℝ :=
  npCov M j k / Real.sqrt (npCov M j j * npCov M k k)

/-- `_compute_error`, with the toy ensemble (the matrix `unfolded_results` filled
by the solver on the resampled toys) abstracted as an argument: for `n_toys = 1`
return `(np.sqrt(solution), None, None)`; otherwise return the ensemble's
standard deviations, covariance and correlation. -/
noncomputable def computeError {n : ℕ} (nToys : ℕ) (solution : Fin n → ℝ)
    (ensemble : Fin nToys → Fin n → ℝ) :
    (Fin n → ℝ) × Option (Fin n → Fin n → ℝ) × Option (Fin n → Fin n → ℝ) :=
  if nToys = 1 then (fun i => Real.sqrt (solution i), none, none)
  else (fun j => npStd ensemble j, some (fun j k => npCov ensemble j k),
    some (fun j k => npCorr ensemble j k))

/-- Worker-pool size of `_compute_error`: `n_cores = os.cpu_count() - 2`,
overridden by `num_cores` when that is not `None`. -/
def nCores (cpuCount : ℤ) (numCores : Option ℤ) : ℤ :=
  match numCores with
  | some c => c
  | none => cpuCount - 2

/-! ## Index-addressed writes of the parallel toy loop
(`toy_job` and the `ThreadPoolExecutor.map` loop in `_compute_error`) -/

/-- `toy_job(i)`: solve the formulation rebuilt from the same `R` and `lam` with
toy `i`'s resampled measured vector, paired with the destination row index `i`
(the write `unfolded_results[i] = solver(unfolder)` is index-addressed). -/
def toyJob {T n V : Type} (solve : (n → ℚ) → V) (toyData : T → n → ℚ) (i : T) :
    T × V := (i, solve (toyData i))

/-- Execute a list of index-addressed writes (in the given completion order)
against the preallocated `np.empty` result array. -/
def applyWrites {T V : Type} [DecidableEq T] (writes : List (T × V)) (init : T → V) :
    T → V :=
  writes.foldl (fun acc w => Function.update acc w.1 w.2) init

/-! ## Concrete instances used as counterexamples and witnesses -/

/-- A 1×1 response matrix with efficiency 1/2. -/
def halfR : Fin 1 → Fin 1 → ℚ := fun _ _ => 1 / 2

/-- A length-1 measured histogram with a single count. -/
def oneD : Fin 1 → ℚ := fun _ => 1

/-- The identity 1×1 response matrix. -/
def oneR : Fin 1 → Fin 1 → ℚ := fun _ _ => 1

/-- A 1-bin measured histogram whose expected-entries value `7/3` makes the
bit-width formula hit the exact power of two `(7/3 + 1)·1.2 = 4`. -/
def dW : Fin 1 → ℚ := fun _ => 7 / 3

end QUnfold

namespace QUnfold

/-- C2 counterexample: with a single bin of efficiency `1/2` and one measured
count, the code computes `expected = d / eff = 2`, while the claimed formula
`d / max(eff, 1)` gives `1`: the code divides by the raw efficiency whenever it
is nonzero, it does not clamp efficiencies below one up to one. -/
theorem C2_counterexample :
    getExpectedNumEntries halfR oneD 0 ≠ oneD 0 / max (effs halfR 0) 1 := by
  simp [getExpectedNumEntries, adjustedEffs, effs, halfR, oneD]
  norm_num

/-- C2 (amended): `_get_expected_num_entries` computes
`expected_i = d_i / eff_i` when the column sum `eff_i` of `R` is nonzero and
`expected_i = d_i` when `eff_i = 0` (the zero efficiency is replaced by `1`);
the divisor is never zero, so no division error can occur. -/
theorem C2_expected_entries {n : ℕ} (R : Fin n → Fin n → ℚ) (d : Fin n → ℚ) (j : Fin n) :
    adjustedEffs R j ≠ 0
      ∧ (effs R j ≠ 0 → getExpectedNumEntries R d j = d j / effs R j)
      ∧ (effs R j = 0 → getExpectedNumEntries R d j = d j) := by
  refine ⟨?_, ?_, ?_⟩
  · unfold adjustedEffs
    split <;> simp_all
  · intro h
    simp [getExpectedNumEntries, adjustedEffs, h]
  · intro h
    simp [getExpectedNumEntries, adjustedEffs, h]

/-- C2 witness: on the all-zero 1×1 response matrix the efficiency is zero and
the expected number of entries falls back to the measured count itself. -/
theorem C2_witness :
    effs (fun _ _ => (0 : ℚ) : Fin 1 → Fin 1 → ℚ) 0 = 0
      ∧ getExpectedNumEntries (fun _ _ => (0 : ℚ) : Fin 1 → Fin 1 → ℚ) oneD 0 = oneD 0 :=
  ⟨by simp [effs], (C2_expected_entries (fun _ _ => (0 : ℚ)) oneD 0).2.2 (by simp [effs])⟩

/-- Sum over `Fin n` of an indicator of `j.val = m`. -/
lemma sum_indicator_val_eq {n : ℕ} (m : ℕ) (c : ℚ) :
    (∑ j : Fin n, if (j : ℕ) = m then c else 0) = if m < n then c else 0 := by
  rw [Fin.sum_univ_eq_sum_range (fun j => if j = m then c else 0),
    Finset.sum_ite_eq' (Finset.range n) m (fun _ => c)]
  simp [Finset.mem_range]

/-- Sum over `Fin n` of an indicator of `m = j.val + 1`. -/
lemma sum_indicator_succ_eq {n : ℕ} (m : ℕ) (c : ℚ) :
    (∑ j : Fin n, if m = (j : ℕ) + 1 then c else 0)
      = if 1 ≤ m ∧ m - 1 < n then c else 0 := by
  rcases Nat.eq_zero_or_pos m with rfl | hm
  · simp
  · obtain ⟨k, rfl⟩ : ∃ k, m = k + 1 := ⟨m - 1, by omega⟩
    have hcond : ∀ j : Fin n, (k + 1 = (j : ℕ) + 1) = ((j : ℕ) = k) := by
      intro j
      simp [eq_comm]
    simp_rw [hcond]
    rw [sum_indicator_val_eq]
    have hiff : (1 ≤ k + 1 ∧ k + 1 - 1 < n) ↔ (k < n) := by omega
    simp only [hiff]

/-- Every row of the Laplacian sums to zero as soon as `n ≥ 2` (including the
first and the last row). -/
lemma laplacian_rowSum {n : ℕ} (hn : 2 ≤ n) (i : Fin n) :
    ∑ j, getLaplacian n i j = 0 := by
  have hi := i.isLt
  unfold getLaplacian
  rw [Finset.sum_add_distrib, Finset.sum_add_distrib]
  have h1 : (∑ j, if i = j then laplacianDiag n i else 0) = laplacianDiag n i := by
    rw [Finset.sum_ite_eq]
    simp
  have h2 : (∑ j : Fin n, if (j : ℕ) = (i : ℕ) + 1 then (1 : ℚ) else 0)
      = if (i : ℕ) + 1 < n then 1 else 0 := sum_indicator_val_eq _ _
  have h3 : (∑ j : Fin n, if (i : ℕ) = (j : ℕ) + 1 then (1 : ℚ) else 0)
      = if 1 ≤ (i : ℕ) ∧ (i : ℕ) - 1 < n then 1 else 0 := sum_indicator_succ_eq _ _
  rw [h1, h2, h3]
  unfold laplacianDiag
  by_cases hi0 : (i : ℕ) = 0
  · have hlt : (i : ℕ) + 1 < n := by omega
    have hne : ¬(1 ≤ (i : ℕ) ∧ (i : ℕ) - 1 < n) := by omega
    rw [if_pos (Or.inl hi0), if_pos hlt, if_neg hne]
    norm_num
  · by_cases hin : (i : ℕ) = n - 1
    · have hnlt : ¬((i : ℕ) + 1 < n) := by omega
      have hle : 1 ≤ (i : ℕ) ∧ (i : ℕ) - 1 < n := by omega
      rw [if_pos (Or.inr hin), if_neg hnlt, if_pos hle]
      norm_num
    · have hlt : (i : ℕ) + 1 < n := by omega
      have hle : 1 ≤ (i : ℕ) ∧ (i : ℕ) - 1 < n := by omega
      rw [if_neg (by tauto), if_pos hlt, if_pos hle]
      norm_num

/-- Gram-matrix quadratic form: `Σ_i Σ_j (MᵀM)_ij x_i x_j = Σ_k (Mx)_k²`. -/
lemma sq_expand {α : Type} [CommRing α] {m n : ℕ} (M : Fin m → Fin n → α) (x : Fin n → α) :
    ∑ i, ∑ j, (∑ k, M k i * M k j) * x i * x j = ∑ k, (∑ i, M k i * x i) ^ 2 := by
  have h1 : ∀ k : Fin m,
      (∑ i, M k i * x i) ^ 2 = ∑ i, ∑ j, M k i * M k j * x i * x j := by
    intro k
    rw [sq, Finset.sum_mul_sum]
    exact Finset.sum_congr rfl fun i _ => Finset.sum_congr rfl fun j _ => by ring
  calc ∑ i, ∑ j, (∑ k, M k i * M k j) * x i * x j
      = ∑ i, ∑ j, ∑ k, M k i * M k j * x i * x j := by
        simp_rw [Finset.sum_mul]
    _ = ∑ i, ∑ k, ∑ j, M k i * M k j * x i * x j :=
        Finset.sum_congr rfl fun i _ => Finset.sum_comm
    _ = ∑ k, ∑ i, ∑ j, M k i * M k j * x i * x j := Finset.sum_comm
    _ = ∑ k, (∑ i, M k i * x i) ^ 2 := by
        simp_rw [h1]

/-- The linear term of the Hamiltonian: `Σ_i (-2 Rᵀd)_i x_i = -2 Σ_k d_k (Rx)_k`. -/
lemma lin_expand {n : ℕ} (R : Fin n → Fin n → ℚ) (d : Fin n → ℚ) (x : Fin n → ℚ) :
    ∑ i, linCoeff R d i * x i = -2 * ∑ k, d k * ∑ j, R k j * x j := by
  unfold linCoeff
  calc ∑ i, (-2 * ∑ k, R k i * d k) * x i
      = ∑ i, ∑ k, -2 * (R k i * d k) * x i := by
        simp_rw [Finset.mul_sum, Finset.sum_mul]
    _ = ∑ k, ∑ i, -2 * (R k i * d k) * x i := Finset.sum_comm
    _ = -2 * ∑ k, d k * ∑ j, R k j * x j := by
        rw [Finset.mul_sum]
        refine Finset.sum_congr rfl fun k _ => ?_
        simp_rw [Finset.mul_sum]
        exact Finset.sum_congr rfl fun i _ => by ring

/-- The Hamiltonian of `_define_hamiltonian` over any rational assignment equals
the regularised least-squares objective minus the constant `‖d‖²`. -/
lemma defineHamiltonian_eq_objective {n : ℕ} (R : Fin n → Fin n → ℚ) (d : Fin n → ℚ)
    (lam : ℚ) (x : Fin n → ℚ) :
    defineHamiltonian R d lam x = objective R d lam x := by
  have hquad : ∑ i, ∑ j, quadCoeff R lam i j * x i * x j
      = (∑ k, (∑ i, R k i * x i) ^ 2)
        + lam * ∑ k, (∑ i, getLaplacian n k i * x i) ^ 2 := by
    unfold quadCoeff
    simp_rw [add_mul, Finset.sum_add_distrib]
    rw [sq_expand R x]
    congr 1
    calc ∑ i, ∑ j, lam * (∑ k, getLaplacian n k i * getLaplacian n k j) * x i * x j
        = ∑ i, ∑ j,
            lam * ((∑ k, getLaplacian n k i * getLaplacian n k j) * x i * x j) := by
          simp_rw [mul_assoc]
      _ = lam * ∑ i, ∑ j,
            (∑ k, getLaplacian n k i * getLaplacian n k j) * x i * x j := by
          simp_rw [← Finset.mul_sum]
      _ = lam * ∑ k, (∑ i, getLaplacian n k i * x i) ^ 2 := by
          rw [sq_expand (getLaplacian n) x]
  unfold defineHamiltonian objective
  rw [hquad, lin_expand R d x]
  simp_rw [sub_sq]
  rw [Finset.sum_add_distrib, Finset.sum_sub_distrib]
  have h2 : ∑ k, 2 * (∑ j, R k j * x j) * d k = 2 * ∑ k, d k * ∑ j, R k j * x j := by
    rw [Finset.mul_sum]
    exact Finset.sum_congr rfl fun k _ => by ring
  rw [h2]
  ring

/-- C1: for every response matrix `R`, measured vector `d` and regularisation
strength `lam`, the integer-variable Hamiltonian of `_define_hamiltonian` is
`Σ_i a_i x_i + Σ_i Σ_j B_ij x_i x_j` with `a = -2Rᵀd` and
`B = RᵀR + lam·GᵀG`, and this expression equals
`‖Rx - d‖² + lam·‖Gx‖² - ‖d‖²` for every integer vector `x`. -/
theorem C1_hamiltonian {n : ℕ} (R : Fin n → Fin n → ℚ) (d : Fin n → ℚ) (lam : ℚ)
    (x : Fin n → ℤ) :
    defineHamiltonian R d lam (fun i => (x i : ℚ))
        = (∑ i, linCoeff R d i * (x i : ℚ))
          + ∑ i, ∑ j, quadCoeff R lam i j * (x i : ℚ) * (x j : ℚ)
      ∧ defineHamiltonian R d lam (fun i => (x i : ℚ))
        = objective R d lam (fun i => (x i : ℚ)) :=
  ⟨rfl, defineHamiltonian_eq_objective R d lam fun i => (x i : ℚ)⟩

/-- C3 counterexample: for `n = 3` the *first* and *last* rows of the Laplacian
also sum to zero (`-1 + 1 = 0`), contradicting the claim that the rows sum to
zero *except* the first and last rows. -/
theorem C3_counterexample :
    (∑ j, getLaplacian 3 0 j) = 0 ∧ (∑ j, getLaplacian 3 2 j) = 0 := by
  constructor <;>
    · simp [Fin.sum_univ_three, getLaplacian, laplacianDiag, Fin.ext_iff]

/-- C3 (amended): for every `n ≥ 2` the matrix `G = _get_laplacian(n)` is
symmetric, has diagonal `[-1, -2, ..., -2, -1]`, has `+1` on the super- and
sub-diagonal and `0` elsewhere, and *all* of its rows sum to `0`, the first and
last rows included. -/
theorem C3_laplacian (n : ℕ) (hn : 2 ≤ n) :
    (∀ i j, getLaplacian n i j = getLaplacian n j i)
      ∧ (∀ i : Fin n,
          getLaplacian n i i = if (i : ℕ) = 0 ∨ (i : ℕ) = n - 1 then -1 else -2)
      ∧ (∀ i j : Fin n, (j : ℕ) = (i : ℕ) + 1 → getLaplacian n i j = 1)
      ∧ (∀ i j : Fin n, (i : ℕ) = (j : ℕ) + 1 → getLaplacian n i j = 1)
      ∧ (∀ i j : Fin n, i ≠ j → (j : ℕ) ≠ (i : ℕ) + 1 → (i : ℕ) ≠ (j : ℕ) + 1 →
          getLaplacian n i j = 0)
      ∧ (∀ i : Fin n, ∑ j, getLaplacian n i j = 0) := by
  refine ⟨?_, ?_, ?_, ?_, ?_, fun i => laplacian_rowSum hn i⟩
  · intro i j
    unfold getLaplacian
    rcases eq_or_ne i j with h | h
    · subst h
      ring
    · simp only [if_neg h, if_neg (Ne.symm h)]
      ring
  · intro i
    simp [getLaplacian, laplacianDiag]
  · intro i j hij
    have hne : i ≠ j := by
      intro h
      rw [h] at hij
      omega
    unfold getLaplacian
    rw [if_neg hne, if_pos hij, if_neg (by omega)]
    norm_num
  · intro i j hij
    have hne : i ≠ j := by
      intro h
      rw [h] at hij
      omega
    unfold getLaplacian
    rw [if_neg hne, if_neg (by omega), if_pos hij]
    norm_num
  · intro i j hne h1 h2
    unfold getLaplacian
    rw [if_neg hne, if_neg (by omega), if_neg (by omega)]
    norm_num

/-- C3 witness: for `n = 3` the middle row of the Laplacian sums to zero. -/
theorem C3_witness : (2 ≤ 3) ∧ ∑ j, getLaplacian 3 1 j = 0 :=
  ⟨by norm_num, (C3_laplacian 3 (by norm_num)).2.2.2.2.2 1⟩

/-- C5: with `num_toys = 1` the error estimator returns the elementwise square
root of the nominal solution together with `None` for both the covariance and
the correlation matrix; no ensemble statistics are computed. -/
theorem C5_no_toys {n : ℕ} (solution : Fin n → ℝ) (ensemble : Fin 1 → Fin n → ℝ) :
    computeError 1 solution ensemble
      = (fun i => Real.sqrt (solution i), none, none) := by
  simp [computeError]

/-- A write list leaves untouched every index it does not mention. -/
lemma applyWrites_not_mem {T V : Type} [DecidableEq T] (writes : List (T × V))
    (init : T → V) (j : T) (hj : j ∉ writes.map Prod.fst) :
    applyWrites writes init j = init j := by
  induction writes generalizing init with
  | nil => rfl
  | cons w rest ih =>
    rw [List.map_cons, List.mem_cons] at hj
    push_neg at hj
    show applyWrites rest (Function.update init w.1 w.2) j = init j
    rw [ih _ hj.2]
    exact Function.update_noteq hj.1 _ _

/-- When each index is written at most once, the slot of every write holds that
write's value after the whole list has executed, whatever the list order. -/
lemma applyWrites_mem {T V : Type} [DecidableEq T] (writes : List (T × V))
    (init : T → V) {j : T} {v : V} (hnodup : (writes.map Prod.fst).Nodup)
    (hmem : (j, v) ∈ writes) :
    applyWrites writes init j = v := by
  induction writes generalizing init with
  | nil => cases hmem
  | cons w rest ih =>
    rw [List.map_cons, List.nodup_cons] at hnodup
    rcases List.mem_cons.mp hmem with h | h
    · subst h
      show applyWrites rest (Function.update init j v) j = v
      rw [applyWrites_not_mem rest _ j hnodup.1]
      exact Function.update_same j v init
    · exact ih _ hnodup.2 h

/-- C9: whatever the completion order of the parallel toy tasks (any permutation
of the index-addressed writes performed by `toy_job`), ensemble row `i` ends up
holding exactly toy `i`'s result: the solution of the formulation built from
the same `R` and `lam` with toy `i`'s resampled measured vector. -/
theorem C9_ensemble_rows {T n : ℕ} (solve : (Fin n → ℚ) → (Fin n → ℝ))
    (toyData : Fin T → Fin n → ℚ) (writes : List (Fin T × (Fin n → ℝ)))
    (init : Fin T → Fin n → ℝ)
    (hperm : writes.Perm ((List.finRange T).map (toyJob solve toyData)))
    (i : Fin T) :
    applyWrites writes init i = solve (toyData i) := by
  have hkeys : (writes.map Prod.fst).Perm (List.finRange T) := by
    have h := hperm.map Prod.fst
    rw [List.map_map,
      show (Prod.fst ∘ toyJob solve toyData) = id from funext fun i => rfl,
      List.map_id] at h
    exact h
  have hnodup : (writes.map Prod.fst).Nodup :=
    hkeys.nodup_iff.mpr (List.nodup_finRange T)
  have hmem : (i, solve (toyData i)) ∈ writes := by
    rw [hperm.mem_iff]
    exact List.mem_map.mpr ⟨i, List.mem_finRange i, rfl⟩
  exact applyWrites_mem writes init hnodup hmem

/-- A concrete 2-toy solve function used to witness C9. -/
noncomputable def solveW : (Fin 1 → ℚ) → (Fin 1 → ℝ) := fun dv _ => ((dv 0 : ℚ) : ℝ)

/-- Concrete resampled toy data used to witness C9. -/
def toyDataW : Fin 2 → Fin 1 → ℚ := fun i _ => (i : ℚ)

/-- C9 witness: executing the two toy writes in *reversed* completion order
still stores toy `0`'s result in row `0`. -/
theorem C9_witness :
    applyWrites (((List.finRange 2).map (toyJob solveW toyDataW)).reverse)
        (fun _ _ => (0 : ℝ)) 0
      = solveW (toyDataW 0) :=
  C9_ensemble_rows solveW toyDataW _ _ (List.reverse_perm _) 0

/-- C8 counterexample: on a machine with 2 available cores and `num_cores = None`
the code uses `2 - 2 = 0` workers, not `max(2 - 2, 1) = 1`: there is no floor
at 1 in `_compute_error`. -/
theorem C8_counterexample : nCores 2 none ≠ max (2 - 2 : ℤ) 1 := by decide

/-- C8 (amended): with `num_cores = None` the worker-pool size is exactly
`cpu_count - 2`, with no floor at 1; this coincides with `max(cpu_count - 2, 1)`
only when at least 3 cores are available. -/
theorem C8_default_cores (p : ℤ) :
    nCores p none = p - 2 ∧ (3 ≤ p → nCores p none = max (p - 2) 1) := by
  refine ⟨rfl, fun hp => ?_⟩
  simp only [nCores]
  omega

/-- C8 witness: on a 4-core machine the default worker count is
`max(4 - 2, 1) = 2`. -/
theorem C8_witness : (3 : ℤ) ≤ 4 ∧ nCores 4 none = max (4 - 2 : ℤ) 1 :=
  ⟨by decide, (C8_default_cores 4).2 (by decide)⟩

/-! ## Variable encoding: C6 -/

/-- `Nat.toDigitsCore` with enough fuel produces the base-10 digits of `n`
(most significant first) in front of the accumulator. -/
lemma toDigitsCore_eq_digits :
    ∀ (f n : ℕ) (acc : List Char), 0 < n → n < 10 ^ f →
      Nat.toDigitsCore 10 f n acc
        = ((Nat.digits 10 n).map Nat.digitChar).reverse ++ acc := by
  intro f
  induction f with
  | zero =>
    intro n acc hn hf
    simp at hf
    omega
  | succ f ih =>
    intro n acc hn hf
    by_cases hdiv : n / 10 = 0
    · have hdig : Nat.digits 10 n = [n % 10] := by
        rw [Nat.digits_def' (by norm_num : 1 < 10) hn, hdiv]
        simp
      simp [Nat.toDigitsCore, hdiv, hdig]
    · have hn' : 0 < n / 10 := Nat.pos_of_ne_zero hdiv
      have hf' : n / 10 < 10 ^ f := by
        rw [pow_succ] at hf
        omega
      have hstep : Nat.toDigitsCore 10 (f + 1) n acc
          = Nat.toDigitsCore 10 f (n / 10) (Nat.digitChar (n % 10) :: acc) := by
        simp [Nat.toDigitsCore, hdiv]
      rw [hstep, ih _ _ hn' hf', Nat.digits_def' (by norm_num : 1 < 10) hn]
      simp

/-- `Nat.toDigits 10` is the reversed digit-character list of the number. -/
lemma toDigits_eq_digits (n : ℕ) (hn : 0 < n) :
    Nat.toDigits 10 n = ((Nat.digits 10 n).map Nat.digitChar).reverse := by
  have hf : n < 10 ^ (n + 1) := by
    calc n < 10 ^ n := Nat.lt_pow_self (by norm_num) n
      _ ≤ 10 ^ (n + 1) := Nat.pow_le_pow_right (by norm_num) (Nat.le_succ n)
  rw [Nat.toDigits, toDigitsCore_eq_digits (n + 1) n [] hn hf, List.append_nil]

/-- `Nat.digitChar` is injective below 10. -/
lemma digitChar_inj_lt : ∀ a < 10, ∀ c < 10, Nat.digitChar a = Nat.digitChar c → a = c := by
  decide

/-- Mapping `Nat.digitChar` over lists of decimal digits is injective. -/
lemma map_digitChar_inj : ∀ (l1 l2 : List ℕ), (∀ x ∈ l1, x < 10) → (∀ x ∈ l2, x < 10) →
    l1.map Nat.digitChar = l2.map Nat.digitChar → l1 = l2 := by
  intro l1
  induction l1 with
  | nil =>
    intro l2 _ _ h
    cases l2 with
    | nil => rfl
    | cons b tl2 => simp at h
  | cons a tl ih =>
    intro l2 h1 h2 h
    cases l2 with
    | nil => simp at h
    | cons b tl2 =>
      simp only [List.map_cons, List.cons.injEq] at h
      have hab : a = b :=
        digitChar_inj_lt a (h1 a (by simp)) b (h2 b (by simp)) h.1
      rw [hab, ih tl2 (fun x hx => h1 x (by simp [hx]))
        (fun x hx => h2 x (by simp [hx])) h.2]

/-- The decimal string representation of a natural number determines it. -/
lemma repr_injective : Function.Injective Nat.repr := by
  intro m n h
  have h' : Nat.toDigits 10 m = Nat.toDigits 10 n := congrArg String.data h
  have habs : ∀ a : ℕ, 0 < a →
      Nat.toDigits 10 0 = Nat.toDigits 10 a → False := by
    intro a ha hza
    rw [toDigits_eq_digits a ha] at hza
    have h0 : ([Nat.digitChar 0] : List Char)
        = ((Nat.digits 10 a).map Nat.digitChar).reverse := hza
    have hrev : (Nat.digits 10 a).map Nat.digitChar = [Nat.digitChar 0] := by
      have := congrArg List.reverse h0
      simpa using this.symm
    have hdig : Nat.digits 10 a = [0] := by
      refine map_digitChar_inj _ [0]
        (fun x hx => Nat.digits_lt_base (by norm_num) hx) (by simp) ?_
      simpa using hrev
    have := Nat.ofDigits_digits 10 a
    rw [hdig] at this
    simp [Nat.ofDigits] at this
    omega
  rcases Nat.eq_zero_or_pos m with rfl | hm
  · rcases Nat.eq_zero_or_pos n with rfl | hn0
    · rfl
    · exact absurd h' (fun hc => habs n hn0 hc)
  · rcases Nat.eq_zero_or_pos n with rfl | hn0
    · exact absurd h'.symm (fun hc => habs m hm hc)
    · rw [toDigits_eq_digits m hm, toDigits_eq_digits n hn0] at h'
      have hmap : (Nat.digits 10 m).map Nat.digitChar
          = (Nat.digits 10 n).map Nat.digitChar := by
        have := congrArg List.reverse h'
        simpa using this
      have hdig : Nat.digits 10 m = Nat.digits 10 n :=
        map_digitChar_inj _ _ (fun x hx => Nat.digits_lt_base (by norm_num) hx)
          (fun x hx => Nat.digits_lt_base (by norm_num) hx) hmap
      have := congrArg (Nat.ofDigits 10) hdig
      rwa [Nat.ofDigits_digits, Nat.ofDigits_digits] at this

/-- The variable labels `x{i}` determine the bin index. -/
lemma label_inj {a c : ℕ} (h : "x" ++ Nat.repr a = "x" ++ Nat.repr c) : a = c := by
  have hd := congrArg String.data h
  simp only [String.data_append] at hd
  exact repr_injective (String.ext (List.append_cancel_left hd))

/-- For a non-negative expected-entries value the bit width is at least one
(the ceiling log argument `(e+1)·1.2` exceeds 1). -/
lemma one_le_numBits {e : ℚ} (he : 0 ≤ e) : 1 ≤ numBits e := by
  unfold numBits
  have harg : (1 : ℚ) < (e + 1) * (6 / 5) := by nlinarith
  have hpos : (0 : ℚ) < (e + 1) * (6 / 5) := by linarith
  have hiff := Int.le_zpow_iff_clog_le (b := 2) (by norm_num) hpos (x := 0)
  rw [zpow_zero] at hiff
  have hc : ¬ Int.clog 2 ((e + 1) * (6 / 5)) ≤ 0 := by
    intro hc0
    have := hiff.mpr hc0
    push_cast at this
    linarith
  omega

/-- The digit count of a log-encoded integer with the computed upper bound is
exactly the bit width `numBits` used by the energy evaluator. -/
lemma logEncDigits_upperBound (e : ℚ) :
    logEncDigits (upperBound e) = numBits e := by
  unfold logEncDigits upperBound
  have hcast : ((2 ^ numBits e - 1 : ℤ) : ℚ) + 1 = ((2 : ℕ) : ℚ) ^ ((numBits e : ℕ) : ℤ) := by
    rw [zpow_natCast]
    push_cast
    ring
  rw [hcast, Int.clog_zpow (by norm_num)]
  simp

/-- C6: for every expected-counts vector with non-negative entries,
`_define_variables` creates exactly one integer variable per bin, with lower
bound `0`, upper bound `2^⌈log2((expected_i+1)·1.2)⌉ - 1`, a distinct label
`x{i}` for bin `i`, and a log encoding on `⌈log2(upper_i+1)⌉` binary digits —
which is at least one digit and agrees with the bit width `numBits` that
`compute_energy` re-derives. -/
theorem C6_define_variables {n : ℕ} (R : Fin n → Fin n → ℚ) (d : Fin n → ℚ)
    (hnn : ∀ i, 0 ≤ getExpectedNumEntries R d i) :
    (defineVariables R d).length = n
      ∧ (∀ i : Fin n, (defineVariables R d)[(i : ℕ)]?
          = some ⟨"x" ++ Nat.repr i.val, 0, upperBound (getExpectedNumEntries R d i)⟩)
      ∧ (∀ i : Fin n, logEncDigits (upperBound (getExpectedNumEntries R d i))
          = numBits (getExpectedNumEntries R d i))
      ∧ (∀ i : Fin n, 1 ≤ logEncDigits (upperBound (getExpectedNumEntries R d i)))
      ∧ ((defineVariables R d).map (fun v => v.label)).Nodup := by
  refine ⟨by simp [defineVariables], ?_, fun i => logEncDigits_upperBound _, ?_, ?_⟩
  · intro i
    unfold defineVariables
    rw [List.getElem?_map, List.getElem?_eq_getElem (by simp [i.isLt])]
    simp
  · intro i
    rw [logEncDigits_upperBound]
    exact one_le_numBits (hnn i)
  · unfold defineVariables
    rw [List.map_map]
    refine List.Nodup.map ?_ (List.nodup_finRange n)
    intro a c hac
    exact Fin.ext (label_inj hac)

/-- C6 witness: on the concrete 1-bin instance the single variable has label
`x0`, range `[0, 3]`, and 2 binary digits. -/
theorem C6_witness :
    (0 : ℚ) ≤ getExpectedNumEntries oneR dW 0
      ∧ (defineVariables oneR dW).length = 1
      ∧ (defineVariables oneR dW)[(0 : ℕ)]?
        = some ⟨"x" ++ Nat.repr 0, 0, upperBound (getExpectedNumEntries oneR dW 0)⟩ := by
  have hnn : ∀ i : Fin 1, 0 ≤ getExpectedNumEntries oneR dW i := by
    intro i
    have h0 : i = 0 := Fin.ext (by omega)
    rw [h0]
    norm_num [getExpectedNumEntries, adjustedEffs, effs, oneR, dW, Fin.sum_univ_one]
  exact ⟨hnn 0, (C6_define_variables oneR dW hnn).1,
    (C6_define_variables oneR dW hnn).2.1 0⟩

/-! ## The energy round-trip: C7 -/

/-- Re-deriving the binary digits of a decoded value on the original width
recovers exactly the original digit list. -/
lemma natToBits_decodeBits (bs : List Bool) :
    natToBits bs.length (decodeBits bs) = bs := by
  induction bs with
  | nil => rfl
  | cons b tl ih =>
    show (((if b then 1 else 0) + 2 * decodeBits tl) % 2 == 1)
        :: natToBits tl.length (((if b then 1 else 0) + 2 * decodeBits tl) / 2)
      = b :: tl
    have hmod : ((if b then 1 else 0) + 2 * decodeBits tl) % 2 = if b then 1 else 0 := by
      cases b
      · show (0 + 2 * decodeBits tl) % 2 = 0
        omega
      · show (1 + 2 * decodeBits tl) % 2 = 1
        omega
    have hdiv : ((if b then 1 else 0) + 2 * decodeBits tl) / 2 = decodeBits tl := by
      cases b
      · show (0 + 2 * decodeBits tl) / 2 = decodeBits tl
        omega
      · show (1 + 2 * decodeBits tl) / 2 = decodeBits tl
        omega
    rw [hmod, hdiv, ih]
    cases b <;> rfl

/-- C7: the energy evaluator `compute_energy`, applied to the decoded solution
of any sample of the same instance, reproduces exactly the compiled model's
energy of that sample's bit assignment: `compute_energy` re-derives each bin's
bit-width with the same formula as encoding time from the original measured
vector `d`, so the binary re-expansion of each decoded value recovers the
sample's bits. -/
theorem C7_energy_roundtrip {n : ℕ} (R : Fin n → Fin n → ℚ) (d : Fin n → ℚ)
    (lam : ℚ) (s : Fin n → List Bool)
    (hlen : ∀ i, (s i).length = numBits (getExpectedNumEntries R d i)) :
    computeEnergy R d lam (postProcessSampleset s) = bqmEnergy R d lam s := by
  unfold computeEnergy postProcessSampleset
  congr 1
  funext i
  rw [← hlen i, natToBits_decodeBits]

/-- C7 witness: a concrete 2-bit sample round-trips through decode and
`compute_energy` on the 1-bin instance `R = [[1]]`, `d = [7/3]`, `lam = 0`. -/
theorem C7_witness :
    ((fun _ : Fin 1 => [true, false]) 0).length
        = numBits (getExpectedNumEntries oneR dW 0)
      ∧ computeEnergy oneR dW 0 (postProcessSampleset fun _ : Fin 1 => [true, false])
        = bqmEnergy oneR dW 0 (fun _ : Fin 1 => [true, false]) := by
  have he : getExpectedNumEntries oneR dW 0 = 7 / 3 := by
    norm_num [getExpectedNumEntries, adjustedEffs, effs, oneR, dW, Fin.sum_univ_one]
  have hb : numBits (getExpectedNumEntries oneR dW 0) = 2 := by
    rw [he]
    unfold numBits
    rw [show ((7 / 3 + 1 : ℚ) * (6 / 5)) = ((2 : ℕ) : ℚ) ^ (2 : ℤ) by norm_num]
    rw [Int.clog_zpow (by norm_num)]
    rfl
  have hlen : ∀ i : Fin 1,
      ((fun _ : Fin 1 => [true, false]) i).length
        = numBits (getExpectedNumEntries oneR dW i) := by
    intro i
    have h0 : i = 0 := Fin.ext (by omega)
    rw [h0, hb]
    rfl
  exact ⟨hlen 0,
    C7_energy_roundtrip oneR dW 0 (fun _ => [true, false]) hlen⟩

/-! ## Ensemble statistics: C4 and C10 -/

/-- Diagonal of the ensemble covariance as a normalised sum of squares. -/
lemma npCov_diag {T n : ℕ} (M : Fin T → Fin n → ℝ) (j : Fin n) :
    npCov M j j = (∑ i, (M i j - colMean M j) ^ 2) / ((T : ℝ) - 1) := by
  unfold npCov
  congr 1
  exact Finset.sum_congr rfl fun i _ => (pow_two _).symm

/-- The ensemble covariance matrix is symmetric. -/
lemma npCov_symm {T n : ℕ} (M : Fin T → Fin n → ℝ) (j k : Fin n) :
    npCov M j k = npCov M k j := by
  unfold npCov
  congr 1
  exact Finset.sum_congr rfl fun i _ => by ring

/-- The ensemble covariance matrix is positive semi-definite. -/
lemma npCov_psd {T n : ℕ} (hT : 2 ≤ T) (M : Fin T → Fin n → ℝ) (v : Fin n → ℝ) :
    0 ≤ ∑ j, ∑ k, v j * npCov M j k * v k := by
  have hT1 : (0 : ℝ) ≤ ((T : ℝ) - 1)⁻¹ := by
    have h2 : (2 : ℝ) ≤ (T : ℝ) := by exact_mod_cast hT
    have h3 : (0 : ℝ) < (T : ℝ) - 1 := by linarith
    positivity
  set c : Fin T → Fin n → ℝ := fun i j => M i j - colMean M j with hc
  have step : ∑ j, ∑ k, v j * npCov M j k * v k
      = (∑ j, ∑ k, (∑ i, c i j * c i k) * v j * v k) * ((T : ℝ) - 1)⁻¹ := by
    rw [Finset.sum_mul]
    refine Finset.sum_congr rfl fun j _ => ?_
    rw [Finset.sum_mul]
    refine Finset.sum_congr rfl fun k _ => ?_
    unfold npCov
    rw [div_eq_mul_inv]
    ring
  rw [step, sq_expand c v]
  exact mul_nonneg (Finset.sum_nonneg fun i _ => sq_nonneg _) hT1

/-- Cauchy-Schwarz for the ensemble covariance:
`cov_jk² ≤ cov_jj · cov_kk`. -/
lemma npCov_sq_le {T n : ℕ} (M : Fin T → Fin n → ℝ) (j k : Fin n) :
    (npCov M j k) ^ 2 ≤ npCov M j j * npCov M k k := by
  set c : Fin T → Fin n → ℝ := fun i j => M i j - colMean M j with hc
  have key := Finset.sum_mul_sq_le_sq_mul_sq Finset.univ (fun i => c i j) (fun i => c i k)
  have hjj : (∑ i, c i j * c i j) = ∑ i, (c i j) ^ 2 :=
    Finset.sum_congr rfl fun i _ => (pow_two _).symm
  have hkk : (∑ i, c i k * c i k) = ∑ i, (c i k) ^ 2 :=
    Finset.sum_congr rfl fun i _ => (pow_two _).symm
  unfold npCov
  rw [div_pow, div_mul_div_comm, hjj, hkk, ← pow_two]
  rcases eq_or_ne (((T : ℝ) - 1) ^ 2) 0 with h0 | h0
  · rw [h0, div_zero, div_zero]
  · have hpos : 0 < ((T : ℝ) - 1) ^ 2 := lt_of_le_of_ne (sq_nonneg _) (Ne.symm h0)
    exact (div_le_div_iff_of_pos_right hpos).mpr key

/-- Unit diagonal of the correlation matrix from a positive-variance column. -/
lemma npCorr_diag {T n : ℕ} (M : Fin T → Fin n → ℝ) (j : Fin n)
    (hj : 0 < npCov M j j) : npCorr M j j = 1 := by
  unfold npCorr
  rw [Real.sqrt_mul_self hj.le, div_self hj.ne']

/-- Correlation entries lie in `[-1, 1]` when the diagonal variances are positive. -/
lemma npCorr_bounds {T n : ℕ} (M : Fin T → Fin n → ℝ) (j k : Fin n)
    (hjj : 0 < npCov M j j) (hkk : 0 < npCov M k k) :
    -1 ≤ npCorr M j k ∧ npCorr M j k ≤ 1 := by
  have hD : 0 < Real.sqrt (npCov M j j * npCov M k k) :=
    Real.sqrt_pos.mpr (mul_pos hjj hkk)
  have habs : |npCorr M j k| ≤ 1 := by
    unfold npCorr
    rw [abs_div, abs_of_nonneg (Real.sqrt_nonneg _), div_le_one hD]
    refine Real.le_sqrt_of_sq_le ?_
    rw [sq_abs]
    exact npCov_sq_le M j k
  exact abs_le.mp habs

/-- C10: in exact arithmetic the returned error and covariance obey
`error_j² = ((T-1)/T)·cov_jj` (the error uses the ddof = 0 normalisation of
`np.std` while the covariance uses the ddof = 1 normalisation of `np.cov`),
so the error differs from the square root of the covariance diagonal whenever
ensemble column `j` is not constant. -/
theorem C10_error_cov {T n : ℕ} (hT : 2 ≤ T) (sol : Fin n → ℝ)
    (M : Fin T → Fin n → ℝ) (j : Fin n) :
    ((computeError T sol M).1 j) ^ 2 = (((T : ℝ) - 1) / T) * npCov M j j
      ∧ ((∃ i i' : Fin T, M i j ≠ M i' j) →
          (computeError T sol M).1 j ≠ Real.sqrt (npCov M j j)) := by
  have hne1 : T ≠ 1 := by omega
  have hfst : (computeError T sol M).1 = fun j => npStd M j := by
    simp [computeError, hne1]
  have hT2 : (2 : ℝ) ≤ (T : ℝ) := by exact_mod_cast hT
  have hT0 : (0 : ℝ) < (T : ℝ) := by linarith
  have hT1 : (0 : ℝ) < (T : ℝ) - 1 := by linarith
  set S := ∑ i, (M i j - colMean M j) ^ 2 with hS
  have hSnn : 0 ≤ S := Finset.sum_nonneg fun i _ => sq_nonneg _
  have hdiag := npCov_diag M j
  constructor
  · rw [hfst]
    show (npStd M j) ^ 2 = _
    unfold npStd
    rw [Real.sq_sqrt (by positivity), hdiag, ← hS]
    field_simp
    ring
  · rintro ⟨i, i', hii⟩
    rw [hfst]
    show npStd M j ≠ _
    have hSpos : 0 < S := by
      have key : ∀ a : Fin T, M a j ≠ colMean M j → 0 < S := by
        intro a ha
        refine Finset.sum_pos' (fun b _ => sq_nonneg _) ⟨a, Finset.mem_univ a, ?_⟩
        have habs : 0 < |M a j - colMean M j| := abs_pos.mpr (sub_ne_zero.mpr ha)
        calc (0 : ℝ) < |M a j - colMean M j| ^ 2 := by positivity
          _ = (M a j - colMean M j) ^ 2 := sq_abs _
      rcases eq_or_ne (M i j) (colMean M j) with he | hne
      · refine key i' fun h => hii ?_
        rw [he, h]
      · exact key i hne
    have hlt : S / (T : ℝ) < S / ((T : ℝ) - 1) :=
      div_lt_div_of_pos_left hSpos hT1 (by linarith)
    unfold npStd
    rw [hdiag, ← hS]
    exact ne_of_lt (Real.sqrt_lt_sqrt (by positivity) hlt)

/-- A non-constant concrete 2×1 ensemble (column values 0 and 1). -/
def ensembleW : Fin 2 → Fin 1 → ℝ := fun i _ => (i.val : ℝ)

/-- C10 witness: on the concrete non-constant ensemble the error differs from
the square root of the covariance diagonal. -/
theorem C10_witness :
    (2 ≤ 2) ∧ ensembleW 0 0 ≠ ensembleW 1 0
      ∧ (computeError 2 (fun _ => 0) ensembleW).1 0 ≠ Real.sqrt (npCov ensembleW 0 0) :=
  ⟨by norm_num, by norm_num [ensembleW],
    (C10_error_cov (by norm_num) (fun _ => 0) ensembleW 0).2
      ⟨0, 1, by norm_num [ensembleW]⟩⟩

/-- A constant 2×1 toy ensemble: every toy produced the same solution. -/
def constEnsemble : Fin 2 → Fin 1 → ℝ := fun _ _ => 1

/-- C4 counterexample: on a constant ensemble (both toys returned the same
solution, which the estimator cannot rule out) the correlation matrix returned
for `num_toys = 2` does *not* have a unit diagonal: the variance is `0`, the
quotient `0 / √(0·0)` degenerates, and `corr₀₀ ≠ 1` (the reference `np.corrcoef`
produces NaN there). -/
theorem C4_counterexample :
    (computeError 2 (fun _ => 1) constEnsemble).2.2
        = some (fun j k => npCorr constEnsemble j k)
      ∧ npCorr constEnsemble 0 0 ≠ 1 := by
  constructor
  · simp [computeError]
  · have hcov : npCov constEnsemble 0 0 = 0 := by
      simp [npCov, colMean, constEnsemble, Fin.sum_univ_two]
    unfold npCorr
    rw [hcov]
    norm_num

/-- C4 (amended): for `num_toys = T > 1` the error estimator returns the
per-column standard deviations of the ensemble together with its covariance and
correlation matrices, and the covariance matrix is symmetric and positive
semi-definite — all of this for *every* ensemble; and, provided every ensemble
column has positive variance, the correlation matrix has unit diagonal and all
entries in `[-1, 1]`. -/
theorem C4_toy_statistics {T n : ℕ} (hT : 2 ≤ T) (sol : Fin n → ℝ)
    (M : Fin T → Fin n → ℝ) :
    computeError T sol M
        = (fun j => npStd M j, some fun j k => npCov M j k, some fun j k => npCorr M j k)
      ∧ (∀ j k, npCov M j k = npCov M k j)
      ∧ (∀ v : Fin n → ℝ, 0 ≤ ∑ j, ∑ k, v j * npCov M j k * v k)
      ∧ ((∀ j, 0 < npCov M j j) →
          (∀ j, npCorr M j j = 1)
            ∧ (∀ j k, -1 ≤ npCorr M j k ∧ npCorr M j k ≤ 1)) := by
  have hne1 : T ≠ 1 := by omega
  refine ⟨by simp [computeError, hne1], fun j k => npCov_symm M j k,
    fun v => npCov_psd hT M v, fun hvar =>
      ⟨fun j => npCorr_diag M j (hvar j),
        fun j k => npCorr_bounds M j k (hvar j) (hvar k)⟩⟩

/-- C4 witness: on the concrete non-constant ensemble the estimator returns
the ensemble statistics, and — its variances being positive — the correlation
diagonal is `1`. -/
theorem C4_witness :
    (2 ≤ 2) ∧ (0 < npCov ensembleW 0 0)
      ∧ computeError 2 (fun _ => 0) ensembleW
        = (fun j => npStd ensembleW j, some fun j k => npCov ensembleW j k,
            some fun j k => npCorr ensembleW j k)
      ∧ npCorr ensembleW 0 0 = 1 := by
  have hv : ∀ j : Fin 1, 0 < npCov ensembleW j j := by
    intro j
    fin_cases j
    norm_num [npCov, colMean, ensembleW, Fin.sum_univ_two]
  exact ⟨by norm_num, hv 0,
    (C4_toy_statistics (by norm_num) (fun _ => 0) ensembleW).1,
    ((C4_toy_statistics (by norm_num) (fun _ => 0) ensembleW).2.2.2 hv).1 0⟩

end QUnfold
